import Mathlib

/-!
Verification of the step-based publish/subscribe I/O core described in the
repository specification.  The engine core (transform pipeline, metadata
index, engine state machine, reader protocol) is not part of the visible
source tree — only a round-trip accuracy test and two peripheral examples
are — so the definitions below are modelled from the specification text and
each such definition says so in its doc comment.  Block payloads are lists
of exact rationals, standing in for the IEEE binary64 values of the test.
-/

namespace ADIOS2

/-- Modelled from the spec: the per-block max-norm `||x||∞` used by the
transform-pipeline contract (§4.4) and by the accuracy test, which divides
the max absolute difference by the max element of the block. -/
def maxAbs (xs : List ℚ) : ℚ :=
  xs.foldr (fun v m => max |v| m) 0

/-- Pointwise absolute differences of two blocks, used to express
`max|xq - x|` over a block. -/
def absDiffs : List ℚ → List ℚ → List ℚ
  | [], _ => []
  | _, [] => []
  | a :: as, b :: bs => |a - b| :: absDiffs as bs

/-- `max|xq - x|` over a block: the largest pointwise absolute difference. -/
def maxErr (as bs : List ℚ) : ℚ :=
  maxAbs (absDiffs as bs)

/-- Modelled from the spec: a concrete lossless codec for the transform
pipeline (§4.4 requires lossless operators to be bijective).  Delta coding
stores the first value and successive differences; auxiliary pass carrying
the previous value. -/
def deltaEncodeAux : ℚ → List ℚ → List ℚ
  | _, [] => []
  | p, x :: xs => (x - p) :: deltaEncodeAux x xs

/-- Modelled from the spec: delta encoding of a block (lossless operator). -/
def deltaEncode : List ℚ → List ℚ
  | [] => []
  | x :: xs => x :: deltaEncodeAux x xs

/-- Inverse pass of delta coding: prefix sums carrying the previous value. -/
def deltaDecodeAux : ℚ → List ℚ → List ℚ
  | _, [] => []
  | p, d :: ds => (p + d) :: deltaDecodeAux (p + d) ds

/-- Modelled from the spec: delta decoding, the exact inverse of
`deltaEncode`. -/
def deltaDecode : List ℚ → List ℚ
  | [] => []
  | x :: ds => x :: deltaDecodeAux x ds

/-- Modelled from the spec: a concrete lossy codec with tolerance `tol`
(§4.4: reconstructed values must satisfy `|xq - x| ≤ tol * ||x||∞` per
block).  It quantizes each value to the grid of spacing `tol * ||x||∞`,
storing the block max-norm as a header value; a degenerate tolerance or an
all-zero block is stored raw behind a `0` header. -/
def lossyEncode (tol : ℚ) (xs : List ℚ) : List ℚ :=
  let m := maxAbs xs
  if tol ≤ 0 ∨ m ≤ 0 then 0 :: xs
  else m :: xs.map (fun v => ((round (v / (tol * m)) : ℤ) : ℚ))

/-- Modelled from the spec: reconstruction for the lossy codec; reads the
stored max-norm header and rescales the quantized values. -/
def lossyDecode (tol : ℚ) : List ℚ → List ℚ
  | [] => []
  | m :: qs => if tol ≤ 0 ∨ m ≤ 0 then qs else qs.map (fun q => q * (tol * m))

/-- Modelled from the spec: the operator universe of the transform pipeline
(§2.4, §4.4): identity, a lossless codec, and a lossy codec with a
tolerance parameter. -/
inductive TransformOp where
  | identity : TransformOp
  | delta : TransformOp
  | lossy : ℚ → TransformOp
deriving DecidableEq

/-- Forward (Put-time) application of one operator to a block. -/
def opEncode : TransformOp → List ℚ → List ℚ
  | .identity, xs => xs
  | .delta, xs => deltaEncode xs
  | .lossy t, xs => lossyEncode t xs

/-- Inverse (Get-time) application of one operator. -/
def opDecode : TransformOp → List ℚ → List ℚ
  | .identity, ys => ys
  | .delta, ys => deltaDecode ys
  | .lossy t, ys => lossyDecode t ys

/-- Whether an operator is bijective (lossless) in the sense of §4.4. -/
def isLossless : TransformOp → Bool
  | .identity => true
  | .delta => true
  | .lossy _ => false

/-- Modelled from the spec: write-side pipeline.  §4.4: on write, op₁
consumes the raw block and each subsequent op consumes the previous
output. -/
def writeChain (ops : List TransformOp) (xs : List ℚ) : List ℚ :=
  ops.foldl (fun b op => opEncode op b) xs

/-- Modelled from the spec: read-side pipeline.  §4.4: on read the inverse
sequence is applied (inverses in reverse order). -/
def readChain (ops : List TransformOp) (ys : List ℚ) : List ℚ :=
  ops.foldr (fun op b => opDecode op b) ys

/-- A block's full round trip through a transform chain: written through the
chain, then read back through the inverse sequence. -/
def roundTrip (ops : List TransformOp) (xs : List ℚ) : List ℚ :=
  readChain ops (writeChain ops xs)

theorem maxAbs_nonneg (xs : List ℚ) : 0 ≤ maxAbs xs := by
  induction xs with
  | nil => simp [maxAbs]
  | cons x xs ih =>
    simp only [maxAbs, List.foldr] at ih ⊢
    exact le_max_of_le_right ih

theorem maxAbs_cons (x : ℚ) (xs : List ℚ) :
    maxAbs (x :: xs) = max |x| (maxAbs xs) := rfl

theorem le_maxAbs_of_mem {v : ℚ} {xs : List ℚ} (h : v ∈ xs) :
    |v| ≤ maxAbs xs := by
  induction xs with
  | nil => simp at h
  | cons x xs ih =>
    rcases List.mem_cons.mp h with h1 | h2
    · subst h1; rw [maxAbs_cons]; exact le_max_left _ _
    · rw [maxAbs_cons]; exact le_max_of_le_right (ih h2)

theorem maxAbs_le {c : ℚ} (hc : 0 ≤ c) {xs : List ℚ}
    (h : ∀ v ∈ xs, |v| ≤ c) : maxAbs xs ≤ c := by
  induction xs with
  | nil => simpa [maxAbs] using hc
  | cons x xs ih =>
    rw [maxAbs_cons]
    exact max_le (h x (List.mem_cons_self _ _))
      (ih (fun v hv => h v (List.mem_cons_of_mem _ hv)))

theorem deltaDecodeAux_encodeAux (p : ℚ) (xs : List ℚ) :
    deltaDecodeAux p (deltaEncodeAux p xs) = xs := by
  induction xs generalizing p with
  | nil => rfl
  | cons x xs ih =>
    simp [deltaEncodeAux, deltaDecodeAux, ih]

theorem deltaDecode_deltaEncode (xs : List ℚ) :
    deltaDecode (deltaEncode xs) = xs := by
  cases xs with
  | nil => rfl
  | cons x xs => simp [deltaEncode, deltaDecode, deltaDecodeAux_encodeAux]

theorem opDecode_opEncode_of_lossless {op : TransformOp}
    (h : isLossless op = true) (xs : List ℚ) :
    opDecode op (opEncode op xs) = xs := by
  cases op with
  | identity => rfl
  | delta => exact deltaDecode_deltaEncode xs
  | lossy t => simp [isLossless] at h

theorem lossless_chain_roundTrip (ops : List TransformOp)
    (h : ∀ op ∈ ops, isLossless op = true) (xs : List ℚ) :
    readChain ops (writeChain ops xs) = xs := by
  induction ops generalizing xs with
  | nil => rfl
  | cons op ops ih =>
    have hop : isLossless op = true := h op (List.mem_cons_self _ _)
    have hops : ∀ o ∈ ops, isLossless o = true :=
      fun o ho => h o (List.mem_cons_of_mem _ ho)
    calc readChain (op :: ops) (writeChain (op :: ops) xs)
        = opDecode op (readChain ops (writeChain ops (opEncode op xs))) := rfl
      _ = opDecode op (opEncode op xs) := by rw [ih hops]
      _ = xs := opDecode_opEncode_of_lossless hop xs

theorem maxErr_self (xs : List ℚ) : maxErr xs xs = 0 := by
  induction xs with
  | nil => rfl
  | cons x xs ih =>
    have h : maxErr (x :: xs) (x :: xs) = max |x - x| (maxErr xs xs) := by
      simp only [maxErr, absDiffs, maxAbs_cons, abs_abs]
    rw [h, sub_self, abs_zero, ih, max_self]

theorem absDiffs_map (f : ℚ → ℚ) (xs : List ℚ) :
    absDiffs (xs.map f) xs = xs.map (fun v => |f v - v|) := by
  induction xs with
  | nil => rfl
  | cons x xs ih => simp [absDiffs, ih]

/-- Per-element error of grid quantization with spacing `s > 0`. -/
theorem quantize_abs_sub_le {s : ℚ} (hs : 0 < s) (v : ℚ) :
    |((round (v / s) : ℤ) : ℚ) * s - v| ≤ s := by
  have h1 : |((round (v / s) : ℤ) : ℚ) - v / s| ≤ 1 / 2 := by
    have := abs_sub_round (v / s)
    calc |((round (v / s) : ℤ) : ℚ) - v / s|
        = |v / s - ((round (v / s) : ℤ) : ℚ)| := abs_sub_comm _ _
      _ ≤ 1 / 2 := this
  have h2 : ((round (v / s) : ℤ) : ℚ) * s - v
      = (((round (v / s) : ℤ) : ℚ) - v / s) * s := by
    field_simp
  rw [h2, abs_mul, abs_of_pos hs]
  calc |((round (v / s) : ℤ) : ℚ) - v / s| * s ≤ (1 / 2) * s := by
        exact mul_le_mul_of_nonneg_right h1 (le_of_lt hs)
    _ ≤ s := by linarith

/-- The lossy codec honours its §4.4 contract on a raw block: the
reconstruction error is at most `tol * ||x||∞`. -/
theorem lossy_roundTrip_bound {t : ℚ} (ht : 0 < t) (xs : List ℚ) :
    maxErr (lossyDecode t (lossyEncode t xs)) xs ≤ t * maxAbs xs := by
  by_cases hm : maxAbs xs ≤ 0
  · have hm0 : maxAbs xs = 0 := le_antisymm hm (maxAbs_nonneg xs)
    have henc : lossyEncode t xs = 0 :: xs := by
      simp [lossyEncode, hm]
    have hdec : lossyDecode t (0 :: xs) = xs := by
      simp [lossyDecode]
    rw [henc, hdec, maxErr_self, hm0, mul_zero]
  · push_neg at hm
    set m := maxAbs xs with hmdef
    set s := t * m with hsdef
    have hs : 0 < s := mul_pos ht hm
    have hcond : ¬ (t ≤ 0 ∨ m ≤ 0) := by
      push_neg
      exact ⟨ht, hm⟩
    have henc : lossyEncode t xs
        = m :: xs.map (fun v => ((round (v / s) : ℤ) : ℚ)) := by
      simp only [lossyEncode, ← hmdef, ← hsdef, if_neg hcond]
    have hdec : lossyDecode t (lossyEncode t xs)
        = xs.map (fun v => ((round (v / s) : ℤ) : ℚ) * s) := by
      rw [henc]
      simp only [lossyDecode, if_neg hcond, List.map_map]
      rfl
    rw [hdec]
    unfold maxErr
    rw [absDiffs_map]
    apply maxAbs_le (le_of_lt hs)
    intro w hw
    rcases List.mem_map.mp hw with ⟨v, _, hv⟩
    rw [← hv, abs_abs]
    exact quantize_abs_sub_le hs v

/-- Modelled from the spec: the serialized operation descriptor of §3 and
§4.4 — an identifier string plus a parameter map (the lossy codec's
tolerance parameter; its ascii-decimal rendering is modelled by the exact
rational value it denotes). -/
structure OpDesc where
  ident : String
  params : List (String × ℚ)
deriving DecidableEq

/-- Modelled from the spec: the descriptor an operator publishes into the
metadata (§4.4: identifier string and parameter map). -/
def descOfOp : TransformOp → OpDesc
  | .identity => ⟨"identity", []⟩
  | .delta => ⟨"delta", []⟩
  | .lossy t => ⟨"lossy", [("tolerance", t)]⟩

/-- Modelled from the spec: the metadata record of a block's transform
chain — one descriptor per operator, in the exact order applied (§4.4). -/
def serializeChain (ops : List TransformOp) : List OpDesc :=
  ops.map descOfOp

/-- Modelled from the spec: a conforming reader's reconstruction of one
operator from its serialized descriptor; unknown identifiers or malformed
parameter maps yield `none` (§4.4: a missing operator implementation is a
recoverable error). -/
def opOfDesc (d : OpDesc) : Option TransformOp :=
  if d.ident = "identity" ∧ d.params = [] then some TransformOp.identity
  else if d.ident = "delta" ∧ d.params = [] then some TransformOp.delta
  else
    match d.params with
    | [(k, t)] =>
      if d.ident = "lossy" ∧ k = "tolerance" then some (TransformOp.lossy t)
      else none
    | _ => none

/-- Modelled from the spec: a conforming reader's reconstruction of the
whole chain from the serialized descriptor list. -/
def chainOfDescs : List OpDesc → Option (List TransformOp)
  | [] => some []
  | d :: ds =>
    match opOfDesc d, chainOfDescs ds with
    | some op, some ops => some (op :: ops)
    | _, _ => none

theorem opOfDesc_descOfOp (op : TransformOp) :
    opOfDesc (descOfOp op) = some op := by
  cases op <;> simp [descOfOp, opOfDesc]

theorem chainOfDescs_serializeChain (ops : List TransformOp) :
    chainOfDescs (serializeChain ops) = some ops := by
  induction ops with
  | nil => rfl
  | cons op ops ih =>
    simp [serializeChain, chainOfDescs, opOfDesc_descOfOp, ih] at ih ⊢

/-- C2.  Lossless round-trip: a block written through a chain of identity
or lossless operators and read back through the inverse sequence is
recovered exactly (`Get` after `Put` is the identity on the payload). -/
theorem C2_lossless_roundTrip (ops : List TransformOp) (xs : List ℚ)
    (h : ∀ op ∈ ops, isLossless op = true) :
    roundTrip ops xs = xs :=
  lossless_chain_roundTrip ops h xs

theorem C2_lossless_roundTrip_witness :
    (∀ op ∈ [TransformOp.identity, TransformOp.delta], isLossless op = true) ∧
    roundTrip [TransformOp.identity, TransformOp.delta] [3, 1, 4] = [3, 1, 4] :=
  ⟨by decide, C2_lossless_roundTrip [TransformOp.identity, TransformOp.delta]
    [3, 1, 4] (by decide)⟩

/-- C1 (counterexample).  The claimed bound `max|xq - x| ≤ τ * max|x|` fails
for a chain that merely *contains* a lossy operator with tolerance `τ`:
with the lossless delta codec applied before the lossy codec (τ = 2/5), the
block `[1, 0, 1, 0, 1]` reads back with max error `1`, exceeding
`τ * max|x| = 2/5` — quantization error in delta space accumulates through
the delta inverse. -/
theorem C1_lossy_bound_counterexample :
    TransformOp.lossy (2/5) ∈ [TransformOp.delta, TransformOp.lossy (2/5)] ∧
    ¬ maxErr (roundTrip [TransformOp.delta, TransformOp.lossy (2/5)]
        [1, 0, 1, 0, 1]) [1, 0, 1, 0, 1] ≤ (2/5) * maxAbs [1, 0, 1, 0, 1] := by
  constructor
  · simp
  · norm_num [maxErr, roundTrip, writeChain, readChain, opEncode, opDecode,
      deltaEncode, deltaEncodeAux, deltaDecode, deltaDecodeAux,
      lossyEncode, lossyDecode, maxAbs, absDiffs, round_eq, abs_le]

/-- C1 (amended).  For every block written through a transform chain whose
lossy operator (tolerance `t > 0`) consumes the raw block — i.e. the lossy
operator comes first and every subsequent operator is lossless — the values
read back satisfy `max|xq - x| ≤ t * max|x|`. -/
theorem C1_lossy_bound_amended (t : ℚ) (ht : 0 < t) (rest : List TransformOp)
    (hrest : ∀ op ∈ rest, isLossless op = true) (xs : List ℚ) :
    maxErr (roundTrip (TransformOp.lossy t :: rest) xs) xs ≤ t * maxAbs xs := by
  have hsplit : roundTrip (TransformOp.lossy t :: rest) xs
      = lossyDecode t (readChain rest (writeChain rest (lossyEncode t xs))) := rfl
  rw [hsplit, lossless_chain_roundTrip rest hrest (lossyEncode t xs)]
  exact lossy_roundTrip_bound ht xs

theorem C1_lossy_bound_amended_witness :
    0 < (1/100 : ℚ) ∧
    (∀ op ∈ [TransformOp.delta], isLossless op = true) ∧
    maxErr (roundTrip [TransformOp.lossy (1/100), TransformOp.delta] [1, 2, 3])
      [1, 2, 3] ≤ (1/100) * maxAbs [1, 2, 3] :=
  ⟨by norm_num, by decide,
    C1_lossy_bound_amended (1/100) (by norm_num) [TransformOp.delta]
      (by decide) [1, 2, 3]⟩

/-- C8.  Transform-descriptor fidelity: the serialized metadata descriptor
of a block's operator chain records each operator's identifier and
parameter map in exactly the order the operators were applied — in
particular a lossy operator added with tolerance `t` is recorded at its
position with the parameter `tolerance = t` — and a conforming reader
recovers the exact chain (hence can apply the inverse sequence). -/
theorem C8_descriptor_fidelity (ops1 ops2 : List TransformOp) (t : ℚ) :
    serializeChain (ops1 ++ TransformOp.lossy t :: ops2)
      = serializeChain ops1
        ++ OpDesc.mk "lossy" [("tolerance", t)] :: serializeChain ops2
    ∧ chainOfDescs (serializeChain (ops1 ++ TransformOp.lossy t :: ops2))
      = some (ops1 ++ TransformOp.lossy t :: ops2) := by
  constructor
  · simp [serializeChain, descOfOp]
  · exact chainOfDescs_serializeChain _

/-- Modelled from the spec: element type codes of the Type Registry (§3):
signed/unsigned integers of 8/16/32/64 bits, IEEE binary32/binary64,
complex of binary32/binary64, fixed-width characters. -/
inductive DType where
  | i8 | i16 | i32 | i64 | u8 | u16 | u32 | u64 | f32 | f64 | c64 | c128 | chr
deriving DecidableEq

/-- Modelled from the spec: the four shape classes of the data model (§3). -/
inductive ShapeID where
  | globalArray | localArray | globalValue | localValue
deriving DecidableEq

/-- Modelled from the spec: a Variable Store entry (§4.2): declared element
type, global shape, per-peer start/count selection, constant-dims flag and
the attached operator chain. -/
structure VarDecl where
  dtype : DType
  shape : List ℕ
  start : List ℕ
  count : List ℕ
  constantDims : Bool
  ops : List TransformOp
deriving DecidableEq

/-- Modelled from the spec: engine protocol states (§4.6). -/
inductive EngineStatus where
  | opened | betweenSteps | inStep | closed
deriving DecidableEq

/-- Modelled from the spec: distinguished operation results (§6: success,
end-of-stream, not-ready, error; §7: InvalidArgument covers bad shape,
unknown variable and type mismatch, all reported at the call site). -/
inductive OpResult where
  | success | typeMismatch | unknownVariable | invalidState | invalidArgument
deriving DecidableEq

/-- A user-held variable handle: the resolved name together with the
element type the caller declared for it. -/
structure Handle where
  name : String
  dtype : DType
deriving DecidableEq

/-- Modelled from the spec: one Metadata Index block record (§4.5): step
number, variable, type code, global shape, block placement and payload
size. -/
structure BlockRec where
  step : ℕ
  var : String
  dtype : DType
  shape : List ℕ
  start : List ℕ
  count : List ℕ
  payloadSize : ℕ
deriving DecidableEq

/-- Modelled from the spec: the writer-side engine state (§4.6): protocol
status, variable store, current step counter, staged deferred Puts and
Gets of the open step, the metadata index, and the number of consolidated
footers emitted. -/
structure EngineState where
  status : EngineStatus
  vars : List (String × VarDecl)
  currentStep : ℕ
  staging : List (String × List ℚ)
  pendingGets : List String
  index : List BlockRec
  footerWrites : ℕ
deriving DecidableEq

/-- Modelled from the spec: `Open(mode)` places the engine in
`BetweenSteps` (§4.6), with the variables already declared in the store. -/
def openWrite (vars : List (String × VarDecl)) : EngineState :=
  ⟨.betweenSteps, vars, 0, [], [], [], 0⟩

/-- Modelled from the spec: `Put` (§4.6, deferred mode): resolves the
handle, rejects a type mismatch without mutating anything, and otherwise
stages the payload for the open step. -/
def put (st : EngineState) (h : Handle) (data : List ℚ) :
    OpResult × EngineState :=
  match st.vars.lookup h.name with
  | none => (.unknownVariable, st)
  | some v =>
    if h.dtype ≠ v.dtype then (.typeMismatch, st)
    else if st.status ≠ .inStep then (.invalidState, st)
    else (.success, { st with staging := st.staging ++ [(h.name, data)] })

/-- Modelled from the spec: `Get` (§4.6, deferred mode): resolves the
handle, rejects a type mismatch without mutating anything, and otherwise
records the pending read request for the open step. -/
def get (st : EngineState) (h : Handle) : OpResult × EngineState :=
  match st.vars.lookup h.name with
  | none => (.unknownVariable, st)
  | some v =>
    if h.dtype ≠ v.dtype then (.typeMismatch, st)
    else if st.status ≠ .inStep then (.invalidState, st)
    else (.success, { st with pendingGets := st.pendingGets ++ [h.name] })

/-- Modelled from the spec: `setSelection` (§4.2): resolves the handle,
rejects a type mismatch without mutating anything, rejects a new selection
on a constant-dims variable, and otherwise updates the stored start/count. -/
def setSelection (st : EngineState) (h : Handle) (s c : List ℕ) :
    OpResult × EngineState :=
  match st.vars.lookup h.name with
  | none => (.unknownVariable, st)
  | some v =>
    if h.dtype ≠ v.dtype then (.typeMismatch, st)
    else if v.constantDims then (.invalidArgument, st)
    else (.success, { st with vars := st.vars.map (fun p =>
      if p.1 = h.name then (p.1, { p.2 with start := s, count := c }) else p) })

/-- Modelled from the spec: writer `BeginStep` (§4.6). -/
def beginStepW (st : EngineState) : OpResult × EngineState :=
  if st.status = .betweenSteps then (.success, { st with status := .inStep })
  else (.invalidState, st)

/-- The index records one `EndStep` appends: one block record per staged
Put, stamped with the closing step number (§4.5, §4.6). -/
def stepRecordsOf (step : ℕ) (vars : List (String × VarDecl))
    (staging : List (String × List ℚ)) : List BlockRec :=
  staging.filterMap (fun p =>
    match vars.lookup p.1 with
    | none => none
    | some v => some ⟨step, p.1, v.dtype, v.shape, v.start, v.count, p.2.length⟩)

/-- Modelled from the spec: writer `EndStep` (§4.6): applies the deferred
Puts, appends the step's records to the metadata index, releases the
staging, and returns to `BetweenSteps` with the step counter advanced. -/
def endStepW (st : EngineState) : OpResult × EngineState :=
  if st.status = .inStep then
    (.success, { st with
      status := .betweenSteps,
      currentStep := st.currentStep + 1,
      staging := [],
      pendingGets := [],
      index := st.index ++ stepRecordsOf st.currentStep st.vars st.staging })
  else (.invalidState, st)

/-- Modelled from the spec: `Close` (§4.6): emits the consolidated footer
and moves to `Closed`; a `Close` while `InStep` is a programming error
(§5); a `Close` on an already closed engine reports success and changes
nothing. -/
def close (st : EngineState) : OpResult × EngineState :=
  if st.status = .closed then (.success, st)
  else if st.status = .inStep then (.invalidState, st)
  else (.success, { st with status := .closed,
                            footerWrites := st.footerWrites + 1 })

/-- Modelled from the spec: `BeginStep` results for readers (§4.6). -/
inductive StepStatus where
  | ok | endOfStream | notReady | otherError
deriving DecidableEq

/-- Modelled from the spec: `BeginStep` step-selection modes (§4.6). -/
inductive StepSel where
  | nextAvailable | latestAvailable
deriving DecidableEq

/-- Modelled from the spec: reader-side engine state: protocol status, the
next step number not yet delivered, and the step currently open. -/
structure ReaderState where
  status : EngineStatus
  nextStep : ℕ
  current : Option ℕ
deriving DecidableEq

/-- Modelled from the spec: a freshly opened streaming reader (§4.6:
`Open(mode)` lands in `BetweenSteps`). -/
def openRead : ReaderState := ⟨.betweenSteps, 0, none⟩

/-- The step a selection mode picks when steps up to `total` (exclusive)
are available: `NextAvailable` takes the next undelivered step,
`LatestAvailable` skips to the newest published step (§4.6). -/
def selStep (sel : StepSel) (nextStep total : ℕ) : ℕ :=
  match sel with
  | .nextAvailable => nextStep
  | .latestAvailable => total - 1

/-- Modelled from the spec: reader `BeginStep` (§4.6): the writer has
published steps `0 .. total-1` and `closedStream` says whether its closing
sentinel is present.  Delivers a new step when one is available; on a
closed stream with nothing left reports `EndOfStream`; otherwise the
timeout expires with `NotReady` and the state is unchanged (§5:
on timeout the engine remains in `BetweenSteps`). -/
def beginStepR (st : ReaderState) (sel : StepSel) (total : ℕ)
    (closedStream : Bool) (_timeoutMs : ℕ) : StepStatus × ReaderState :=
  if st.status = .betweenSteps then
    if st.nextStep < total then
      let s := selStep sel st.nextStep total
      (.ok, { st with status := .inStep, current := some s, nextStep := s + 1 })
    else if closedStream then (.endOfStream, st)
    else (.notReady, st)
  else (.otherError, st)

/-- Modelled from the spec: reader `EndStep` (§4.6): releases the step's
staging and returns to `BetweenSteps`. -/
def endStepR (st : ReaderState) : ReaderState :=
  if st.status = .inStep then { st with status := .betweenSteps, current := none }
  else st

/-- One interaction of a reader with the stream: a `BeginStep` call (with
its selection mode, the stream's published-step count and closed flag, and
a timeout) or an `EndStep` call. -/
inductive ReaderEvent where
  | stepBegin (sel : StepSel) (total : ℕ) (closedStream : Bool) (timeoutMs : ℕ)
  | stepEnd
deriving DecidableEq

/-- The step numbers a reader observes across a trace of calls: each
successful `BeginStep` contributes the step it delivered. -/
def observedSteps : ReaderState → List ReaderEvent → List ℕ
  | _, [] => []
  | st, ReaderEvent.stepBegin sel total closedStream tm :: evs =>
    let r := beginStepR st sel total closedStream tm
    if r.1 = .ok then r.2.current.getD 0 :: observedSteps r.2 evs
    else observedSteps r.2 evs
  | st, ReaderEvent.stepEnd :: evs => observedSteps (endStepR st) evs

/-- Modelled from the spec: the reader loop of the round-trip test — call
`BeginStep`, process the step, `EndStep`, until `BeginStep` reports a
non-OK status; `fuel` bounds the number of iterations.  Returns the
statuses each `BeginStep` returned and the steps observed. -/
def runReadLoop (total : ℕ) (closedStream : Bool) :
    ReaderState → ℕ → List StepStatus × List ℕ
  | _, 0 => ([], [])
  | st, k + 1 =>
    let r := beginStepR st .nextAvailable total closedStream 0
    if r.1 = .ok then
      let rest := runReadLoop total closedStream (endStepR r.2) k
      (r.1 :: rest.1, r.2.current.getD 0 :: rest.2)
    else ([r.1], [])

/-- Modelled from the spec: whether a step's records reached the transports
intact (§4.6: transport errors during `EndStep` mark the step as
`Partial`; such a step is omitted from the consolidated footer but kept as
a recoverable tail). -/
inductive StepMark where
  | complete | truncated
deriving DecidableEq

/-- Modelled from the spec: the per-step index records left behind by a
writer that attempted `n` steps and stopped mid-stream: if `failAt = some
f` with `f < n`, steps `0 .. f-1` completed, the transport failed during
step `f`'s `EndStep` (marking it `Partial`, here `truncated`) and the
writer stopped there. -/
def crashRunMarks (n : ℕ) (failAt : Option ℕ) : List (ℕ × StepMark) :=
  match failAt with
  | none => (List.range n).map (fun k => (k, StepMark.complete))
  | some f =>
    if f < n then
      (List.range f).map (fun k => (k, StepMark.complete))
        ++ [(f, StepMark.truncated)]
    else (List.range n).map (fun k => (k, StepMark.complete))

/-- Modelled from the spec: the consolidated footer (§4.5): it lists the
completed steps and omits the partial ones. -/
def consolidatedFooter (recs : List (ℕ × StepMark)) : List ℕ :=
  (recs.filter (fun r => r.2 == StepMark.complete)).map Prod.fst

/-- The step numbers the writer attempted, in order. -/
def attemptedSteps (recs : List (ℕ × StepMark)) : List ℕ :=
  recs.map Prod.fst

/-- Modelled from the spec: the steps a `ReadRandomAccess` reader exposes:
when a consolidated footer is present it is authoritative and the per-step
records are not consulted; without one the reader recovers the completed
steps from the per-step records (§4.5). -/
def readRandomAccessSteps (recs : List (ℕ × StepMark))
    (footer : Option (List ℕ)) : List ℕ :=
  match footer with
  | some fs => fs
  | none => consolidatedFooter recs

/-- C5.  Type-mismatch atomicity: any engine operation (`Put`, `Get`,
`setSelection`) invoked through a handle whose declared element type
differs from the resolved variable's declared type returns `TypeMismatch`
and leaves the entire engine state — variable store, staging buffers,
pending requests and metadata index — unchanged. -/
theorem C5_typeMismatch_atomic (st : EngineState) (h : Handle) (v : VarDecl)
    (data : List ℚ) (s c : List ℕ)
    (hres : st.vars.lookup h.name = some v) (hty : h.dtype ≠ v.dtype) :
    put st h data = (.typeMismatch, st)
    ∧ get st h = (.typeMismatch, st)
    ∧ setSelection st h s c = (.typeMismatch, st) := by
  refine ⟨?_, ?_, ?_⟩ <;> simp [put, get, setSelection, hres, hty]

theorem C5_typeMismatch_atomic_witness :
    (openWrite [("r64", ⟨DType.f64, [100, 50], [0, 0], [100, 50], true, []⟩)]).vars.lookup "r64"
        = some ⟨DType.f64, [100, 50], [0, 0], [100, 50], true, []⟩
    ∧ DType.i32 ≠ DType.f64
    ∧ put (openWrite [("r64", ⟨DType.f64, [100, 50], [0, 0], [100, 50], true, []⟩)])
        ⟨"r64", DType.i32⟩ [1, 2]
        = (.typeMismatch,
           openWrite [("r64", ⟨DType.f64, [100, 50], [0, 0], [100, 50], true, []⟩)]) := by
  refine ⟨by decide, by decide, ?_⟩
  exact (C5_typeMismatch_atomic
    (openWrite [("r64", ⟨DType.f64, [100, 50], [0, 0], [100, 50], true, []⟩)])
    ⟨"r64", DType.i32⟩ ⟨DType.f64, [100, 50], [0, 0], [100, 50], true, []⟩
    [1, 2] [0, 0] [10, 10] (by decide) (by decide)).1

/-- C6.  Idempotent Close: a first `Close` from `BetweenSteps` succeeds,
emits exactly one consolidated footer and moves the engine to `Closed`;
every subsequent `Close` reports success and returns the state unchanged —
in particular the footer-emission count stays at one. -/
theorem C6_idempotent_close (st : EngineState)
    (h : st.status = .betweenSteps) :
    (close st).1 = .success
    ∧ (close st).2.status = .closed
    ∧ (close st).2.footerWrites = st.footerWrites + 1
    ∧ close (close st).2 = (.success, (close st).2) := by
  simp [close, h]

theorem C6_idempotent_close_witness :
    (openWrite []).status = EngineStatus.betweenSteps
    ∧ (close (openWrite [])).1 = .success
    ∧ (close (openWrite [])).2.footerWrites = 1
    ∧ close (close (openWrite [])).2 = (.success, (close (openWrite [])).2) := by
  refine ⟨rfl, ?_, ?_, ?_⟩
  · exact (C6_idempotent_close (openWrite []) rfl).1
  · exact (C6_idempotent_close (openWrite []) rfl).2.2.1
  · exact (C6_idempotent_close (openWrite []) rfl).2.2.2

theorem le_selStep (sel : StepSel) {nextStep total : ℕ}
    (h : nextStep < total) : nextStep ≤ selStep sel nextStep total := by
  cases sel with
  | nextAvailable => exact le_refl _
  | latestAvailable => exact Nat.le_sub_one_of_lt h

theorem endStepR_nextStep (st : ReaderState) :
    (endStepR st).nextStep = st.nextStep := by
  unfold endStepR
  split <;> rfl

/-- Invariant behind step monotonicity: along any trace, the observed step
numbers are strictly sorted and all of them are at least the reader's
next-undelivered-step counter. -/
theorem observedSteps_sorted_aux (evs : List ReaderEvent) :
    ∀ st : ReaderState,
      List.Sorted (· < ·) (observedSteps st evs)
      ∧ ∀ k ∈ observedSteps st evs, st.nextStep ≤ k := by
  induction evs with
  | nil => intro st; exact ⟨List.sorted_nil, by simp [observedSteps]⟩
  | cons ev evs ih =>
    intro st
    cases ev with
    | stepEnd =>
      have h := ih (endStepR st)
      refine ⟨by simpa [observedSteps] using h.1, ?_⟩
      intro k hk
      rw [← endStepR_nextStep st]
      exact h.2 k (by simpa [observedSteps] using hk)
    | stepBegin sel total closedStream tm =>
      by_cases hst : st.status = .betweenSteps
      · by_cases hlt : st.nextStep < total
        · have hobs : observedSteps st (ReaderEvent.stepBegin sel total closedStream tm :: evs)
              = selStep sel st.nextStep total ::
                observedSteps ⟨.inStep, selStep sel st.nextStep total + 1,
                  some (selStep sel st.nextStep total)⟩ evs := by
            simp [observedSteps, beginStepR, hst, hlt]
          have h := ih ⟨.inStep, selStep sel st.nextStep total + 1,
            some (selStep sel st.nextStep total)⟩
          rw [hobs]
          constructor
          · rw [List.sorted_cons]
            exact ⟨fun b hb => Nat.lt_of_succ_le (h.2 b hb), h.1⟩
          · intro k hk
            rcases List.mem_cons.mp hk with hk1 | hk2
            · subst hk1; exact le_selStep sel hlt
            · exact le_trans (le_selStep sel hlt)
                (le_trans (Nat.le_succ _) (h.2 k hk2))
        · have hobs : observedSteps st (ReaderEvent.stepBegin sel total closedStream tm :: evs)
              = observedSteps st evs := by
            by_cases hc : closedStream = true <;>
              simp [observedSteps, beginStepR, hst, hlt, hc]
          rw [hobs]
          exact ih st
      · have hobs : observedSteps st (ReaderEvent.stepBegin sel total closedStream tm :: evs)
            = observedSteps st evs := by
          simp [observedSteps, beginStepR, hst]
        rw [hobs]
        exact ih st

/-- C3.  Step monotonicity: along every trace of `BeginStep`/`EndStep`
interactions of any reader with the stream, the step numbers delivered by
the successful `BeginStep` calls are strictly increasing — no step is
observed twice and steps are never reordered. -/
theorem C3_step_monotonicity (st : ReaderState) (evs : List ReaderEvent) :
    List.Sorted (· < ·) (observedSteps st evs) :=
  (observedSteps_sorted_aux evs st).1

/-- C7.  BeginStep timeout is non-fatal and state-preserving: a reader in
`BetweenSteps` with no new step published (`total ≤ nextStep`, stream not
closed) gets `NotReady` — not an error — with its state unchanged, and
once the writer has published more steps (`nextStep < total2`), the same
call succeeds and delivers exactly the expected next step number. -/
theorem C7_timeout_nonfatal (st : ReaderState) (total total2 tm tm2 : ℕ)
    (hst : st.status = .betweenSteps) (hempty : total ≤ st.nextStep)
    (hpub : st.nextStep < total2) :
    beginStepR st .nextAvailable total false tm = (.notReady, st)
    ∧ st.status = .betweenSteps
    ∧ (beginStepR st .nextAvailable total2 false tm2).1 = .ok
    ∧ (beginStepR st .nextAvailable total2 false tm2).2.current
        = some st.nextStep := by
  refine ⟨?_, hst, ?_, ?_⟩ <;>
    simp [beginStepR, hst, Nat.not_lt.mpr hempty, hpub, selStep]

theorem C7_timeout_nonfatal_witness :
    openRead.status = EngineStatus.betweenSteps
    ∧ 0 ≤ openRead.nextStep ∧ openRead.nextStep < 1
    ∧ beginStepR openRead .nextAvailable 0 false 100 = (.notReady, openRead)
    ∧ (beginStepR openRead .nextAvailable 1 false 100).1 = .ok
    ∧ (beginStepR openRead .nextAvailable 1 false 100).2.current = some 0 := by
  have h := C7_timeout_nonfatal openRead 0 1 100 100 rfl (by decide) (by decide)
  exact ⟨rfl, by decide, by decide, h.1, h.2.2.1, h.2.2.2⟩

/-- Loop invariant for the streaming read of a closed output: starting at
next step `j` with `j + d` steps in the file, `d + 1` iterations return
`d` OK statuses (delivering steps `j, j+1, …`) and then `EndOfStream`. -/
theorem runReadLoop_closed_aux (d : ℕ) :
    ∀ (j : ℕ) (st : ReaderState),
      st.status = .betweenSteps → st.nextStep = j →
      runReadLoop (j + d) true st (d + 1)
        = (List.replicate d .ok ++ [.endOfStream], List.range' j d) := by
  induction d with
  | zero =>
    intro j st h1 h2
    simp [runReadLoop, beginStepR, h1, h2]
  | succ d ih =>
    intro j st h1 h2
    have hlt : st.nextStep < j + (d + 1) := by omega
    have hloop : runReadLoop (j + (d + 1)) true st (d + 1 + 1)
        = let r := beginStepR st .nextAvailable (j + (d + 1)) true 0
          if r.1 = .ok then
            let rest := runReadLoop (j + (d + 1)) true (endStepR r.2) (d + 1)
            (r.1 :: rest.1, r.2.current.getD 0 :: rest.2)
          else ([r.1], []) := rfl
    have hbeg : beginStepR st .nextAvailable (j + (d + 1)) true 0
        = (.ok, ⟨.inStep, j + 1, some j⟩) := by
      simp [beginStepR, h1, hlt, selStep, h2]
    have hend : endStepR ⟨.inStep, j + 1, some j⟩
        = ⟨.betweenSteps, j + 1, none⟩ := by
      simp [endStepR]
    have hrec := ih (j + 1) ⟨.betweenSteps, j + 1, none⟩ rfl rfl
    rw [hloop]
    simp only [hbeg, hend]
    have harith : j + 1 + d = j + (d + 1) := by omega
    rw [harith] at hrec
    simp only [hrec]
    simp [List.replicate_succ, List.range'_succ]

/-- C9.  Exhaustive step enumeration on a closed output: a streaming
reader of a file holding `n` completed steps gets `OK` from `BeginStep`
exactly `n` times, delivering steps `0 … n-1` in order, and the `(n+1)`-th
`BeginStep` returns `EndOfStream`, terminating the read loop. -/
theorem C9_step_enumeration (n : ℕ) :
    runReadLoop n true openRead (n + 1)
      = (List.replicate n .ok ++ [.endOfStream], List.range n) := by
  have h := runReadLoop_closed_aux n 0 openRead rfl rfl
  simpa [List.range_eq_range'] using h

/-- Modelled from the spec: the handle a reader obtains from
`InquireVariable`: element type, shape class, global shape and the number
of steps in which the variable was written (the test asserts exactly these
via `ShapeID()`, `Shape()` and `Steps()`). -/
structure ReadHandle where
  dtype : DType
  shapeId : ShapeID
  shape : List ℕ
  stepsCount : ℕ
deriving DecidableEq

/-- Modelled from the spec: shape classification (§3): a non-empty global
shape makes a GlobalArray; otherwise a non-empty count makes per-peer
LocalArray blocks; otherwise the variable is a single GlobalValue. -/
def shapeIdOf (shape count : List ℕ) : ShapeID :=
  if shape ≠ [] then .globalArray
  else if count ≠ [] then .localArray
  else .globalValue

/-- Modelled from the spec: a reader's `InquireVariable` over the
persistent metadata index: absent when the variable was never written;
otherwise the handle carries the recorded type and shape and counts the
distinct steps in which the variable was written. -/
def inquire (idx : List BlockRec) (name : String) : Option ReadHandle :=
  match idx.filter (fun r => r.var == name) with
  | [] => none
  | r :: rs =>
    some ⟨r.dtype, shapeIdOf r.shape r.count, r.shape,
      ((r :: rs).map BlockRec.step).dedup.length⟩

/-- One full writer step of the round-trip test: `BeginStep`, one `Put` of
the block, `EndStep`. -/
def writeStepOnce (h : Handle) (data : List ℚ) (st : EngineState) :
    EngineState :=
  (endStepW (put (beginStepW st).2 h data).2).2

/-- `n` writer steps, each putting the same block — the write loop of the
round-trip test. -/
def writerRun (h : Handle) (data : List ℚ) (st : EngineState) :
    ℕ → EngineState
  | 0 => st
  | n + 1 => writeStepOnce h data (writerRun h data st n)

theorem writerRun_spec (name : String) (decl : VarDecl) (data : List ℚ)
    (n : ℕ) :
    writerRun ⟨name, decl.dtype⟩ data (openWrite [(name, decl)]) n
      = ⟨.betweenSteps, [(name, decl)], n, [], [],
          (List.range n).map (fun k =>
            ⟨k, name, decl.dtype, decl.shape, decl.start, decl.count,
             data.length⟩), 0⟩ := by
  induction n with
  | zero => simp [writerRun, openWrite]
  | succ n ih =>
    rw [writerRun, ih]
    simp [writeStepOnce, beginStepW, put, endStepW, stepRecordsOf,
      List.range_succ]

/-- C10.  Metadata round-trip through the persistent format: a variable
declared with a non-empty global shape and written in `n ≥ 1` steps is
found by the reader's inquiry with shape class `GlobalArray`, the recorded
global shape dimension-for-dimension, and a step count equal to the number
of steps in which it was written. -/
theorem C10_metadata_roundTrip (name : String) (decl : VarDecl)
    (data : List ℚ) (n : ℕ) (hS : decl.shape ≠ []) (hn : 0 < n) :
    inquire (writerRun ⟨name, decl.dtype⟩ data
        (openWrite [(name, decl)]) n).index name
      = some ⟨decl.dtype, ShapeID.globalArray, decl.shape, n⟩ := by
  rw [writerRun_spec]
  have hfilter :
      ((List.range n).map (fun k =>
        (⟨k, name, decl.dtype, decl.shape, decl.start, decl.count,
          data.length⟩ : BlockRec))).filter (fun r => r.var == name)
      = (List.range n).map (fun k =>
        ⟨k, name, decl.dtype, decl.shape, decl.start, decl.count,
         data.length⟩) := by
    apply List.filter_eq_self.mpr
    intro r hr
    rcases List.mem_map.mp hr with ⟨k, _, hk⟩
    rw [← hk]
    simp
  obtain ⟨m, rfl⟩ : ∃ m, n = m + 1 := ⟨n - 1, by omega⟩
  rw [show inquire = fun idx nm =>
      match idx.filter (fun r => r.var == nm) with
      | [] => none
      | r :: rs =>
        some ⟨r.dtype, shapeIdOf r.shape r.count, r.shape,
          ((r :: rs).map BlockRec.step).dedup.length⟩ from rfl]
  simp only [hfilter]
  rw [List.range_succ_eq_map]
  simp only [List.map_cons]
  have hms : List.map BlockRec.step
      (List.map (fun k =>
        (⟨k, name, decl.dtype, decl.shape, decl.start, decl.count,
          data.length⟩ : BlockRec)) (List.map Nat.succ (List.range m)))
      = List.map Nat.succ (List.range m) := by
    rw [List.map_map]
    simp [Function.comp]
  rw [hms, ← List.range_succ_eq_map,
    List.Nodup.dedup (List.nodup_range _), List.length_range]
  simp only [shapeIdOf, if_pos hS]

theorem C10_metadata_roundTrip_witness :
    ([100, 50] : List ℕ) ≠ [] ∧ 0 < 1 ∧
    inquire (writerRun ⟨"r64", DType.f64⟩ [0, 1]
        (openWrite [("r64", ⟨DType.f64, [100, 50], [0, 0], [100, 50], true,
          []⟩)]) 1).index "r64"
      = some ⟨DType.f64, ShapeID.globalArray, [100, 50], 1⟩ :=
  ⟨by decide, by decide,
    C10_metadata_roundTrip "r64"
      ⟨DType.f64, [100, 50], [0, 0], [100, 50], true, []⟩ [0, 1] 1
      (by decide) (by decide)⟩

theorem consolidatedFooter_crashRun (n f : ℕ) (hf : f < n) :
    consolidatedFooter (crashRunMarks n (some f)) = List.range f := by
  simp only [crashRunMarks, if_pos hf]
  unfold consolidatedFooter
  rw [List.filter_append]
  have h1 : (List.filter (fun r => r.2 == StepMark.complete)
      ((List.range f).map (fun k => (k, StepMark.complete))))
      = (List.range f).map (fun k => (k, StepMark.complete)) := by
    apply List.filter_eq_self.mpr
    intro a ha
    rcases List.mem_map.mp ha with ⟨k, _, hk⟩
    rw [← hk]
    rfl
  have h2 : List.filter (fun r => r.2 == StepMark.complete)
      [((f : ℕ), StepMark.truncated)] = [] := rfl
  rw [h1, h2, List.append_nil, List.map_map]
  have hcomp : (Prod.fst ∘ fun k : ℕ => (k, StepMark.complete)) = id := rfl
  rw [hcomp, List.map_id]

theorem attemptedSteps_crashRun (n f : ℕ) (hf : f < n) :
    attemptedSteps (crashRunMarks n (some f)) = List.range (f + 1) := by
  unfold attemptedSteps
  simp only [crashRunMarks, if_pos hf]
  rw [List.map_append, List.map_map, List.range_succ]
  have hcomp : (Prod.fst ∘ fun k : ℕ => (k, StepMark.complete)) = id := rfl
  rw [hcomp, List.map_id]
  rfl

/-- C4.  Footer authority: after a writer stopped mid-stream — it attempted
steps `0 … f` of a planned `n` and the transport failed during step `f`'s
`EndStep`, marking it Partial — a `ReadRandomAccess` reader sees exactly
the steps of the consolidated footer; that footer lists the completed
steps `0 … f-1`, a prefix (`take f`) of the attempted steps, while the
partial step stays in the per-step records as a recoverable tail; and
whenever a consolidated footer is present, the reader's visible steps are
the footer's, whatever the per-step records say. -/
theorem C4_footer_authority (n f : ℕ) (hf : f < n) :
    readRandomAccessSteps (crashRunMarks n (some f))
        (some (consolidatedFooter (crashRunMarks n (some f))))
      = consolidatedFooter (crashRunMarks n (some f))
    ∧ consolidatedFooter (crashRunMarks n (some f))
      = (attemptedSteps (crashRunMarks n (some f))).take f
    ∧ attemptedSteps (crashRunMarks n (some f))
      = consolidatedFooter (crashRunMarks n (some f)) ++ [f]
    ∧ (∀ (recs : List (ℕ × StepMark)) (fs : List ℕ),
        readRandomAccessSteps recs (some fs) = fs) := by
  refine ⟨rfl, ?_, ?_, fun recs fs => rfl⟩
  · rw [consolidatedFooter_crashRun n f hf, attemptedSteps_crashRun n f hf,
      List.take_range]
    congr 1
    omega
  · rw [consolidatedFooter_crashRun n f hf, attemptedSteps_crashRun n f hf,
      List.range_succ]

theorem C4_footer_authority_witness :
    1 < 3
    ∧ readRandomAccessSteps (crashRunMarks 3 (some 1))
        (some (consolidatedFooter (crashRunMarks 3 (some 1))))
      = consolidatedFooter (crashRunMarks 3 (some 1))
    ∧ consolidatedFooter (crashRunMarks 3 (some 1))
      = (attemptedSteps (crashRunMarks 3 (some 1))).take 1
    ∧ attemptedSteps (crashRunMarks 3 (some 1))
      = consolidatedFooter (crashRunMarks 3 (some 1)) ++ [1] := by
  have h := C4_footer_authority 3 1 (by decide)
  exact ⟨by decide, h.1, h.2.1, h.2.2.1⟩

end ADIOS2
